import Mathlib

/-!
Verification of the one-dimensional orthonormal-polynomial engine of
`pyapprox/orthonormal_polynomials_1d.py` and of the Migliorati induced-sampling
loop, against its natural-language specification.

The pure-Python reference paths are embedded shallowly: numpy float arrays
become lists over `ℚ` (exact arithmetic) or over `ℝ` where the source uses
transcendental functions (`exp`, `log`, `gamma`, `sqrt`); a Python `assert`
becomes an `Except` error return; IEEE non-finite results (`sqrt` of a
negative number, `1/0`) are modelled with `Option`, `none` standing for NaN.
-/

/-! ### List access helpers -/

theorem getD_map_range {α : Type} (f : ℕ → α) (n i : ℕ) (d : α) (h : i < n) :
    ((List.range n).map f).getD i d = f i := by
  rw [List.getD_eq_getElem?_getD, List.getElem?_map, List.getElem?_range h]
  rfl

theorem getD_map_of_lt {α β : Type} (f : α → β) (l : List α) (i : ℕ) (d : β) (dl : α)
    (h : i < l.length) : (l.map f).getD i d = f (l.getD i dl) := by
  rw [List.getD_eq_getElem?_getD, List.getElem?_map, List.getElem?_eq_getElem h,
    List.getD_eq_getElem?_getD, List.getElem?_eq_getElem h]
  rfl

theorem getD_flatten_blocks {α : Type} (z : α) :
    ∀ (d m n : ℕ) (f : ℕ → ℕ → α) (j : ℕ), d < m → j < n →
      (((List.range m).map (fun a => (List.range n).map (f a))).flatten).getD (d * n + j) z
        = f d j := by
  intro d
  induction d with
  | zero =>
    intro m n f j hd hj
    obtain ⟨m', rfl⟩ : ∃ m', m = m' + 1 := ⟨m - 1, by omega⟩
    rw [List.range_succ_eq_map]
    simp only [List.map_cons, List.flatten_cons, Nat.zero_mul, Nat.zero_add]
    rw [List.getD_eq_getElem?_getD, List.getElem?_append_left (by simpa using hj),
      ← List.getD_eq_getElem?_getD]
    exact getD_map_range (f 0) n j z hj
  | succ d ih =>
    intro m n f j hd hj
    obtain ⟨m', rfl⟩ : ∃ m', m = m' + 1 := ⟨m - 1, by omega⟩
    rw [List.range_succ_eq_map]
    simp only [List.map_cons, List.flatten_cons, List.map_map]
    rw [List.getD_eq_getElem?_getD,
      List.getElem?_append_right (by simp [Nat.succ_mul]; omega),
      ← List.getD_eq_getElem?_getD]
    have harith : (d + 1) * n + j - ((List.range n).map (f 0)).length = d * n + j := by
      simp [Nat.succ_mul]; omega
    rw [harith]
    have := ih m' n (fun a => f (a + 1)) j (by omega) hj
    simpa [Function.comp] using this

/-! ### The three-term recurrence evaluator

Embeds the pure-Python fallback body of `evaluate_orthonormal_polynomial_1d`
(source lines 371-382).  The per-sample, per-degree value is the structural
recursion that the column-filling loop computes; `ab` is accessed through a
total function obtained from the coefficient table. -/

def evalOrtho {F : Type} [Field F] (x : F) (ab : ℕ → F × F) : ℕ → F
  | 0 => 1 / (ab 0).2
  | 1 => 1 / (ab 1).2 * ((x - (ab 0).1) * (1 / (ab 0).2))
  | j + 2 =>
    1 / (ab (j + 2)).2 *
      ((x - (ab (j + 1)).1) * evalOrtho x ab (j + 1) - (ab (j + 1)).2 * evalOrtho x ab j)

def abf (ab : List (ℚ × ℚ)) : ℕ → ℚ × ℚ := fun i => ab.getD i (0, 0)

/-- `evaluate_orthonormal_polynomial_1d(x, nmax, ab)`: asserts that the
coefficient table has more than `nmax` rows (source line 358), then fills the
`(num_samples, nmax+1)` matrix by the normalized three-term recurrence. -/
def evaluate_orthonormal_polynomial_1d (x : List ℚ) (nmax : ℕ) (ab : List (ℚ × ℚ)) :
    Except String (List (List ℚ)) :=
  if nmax < ab.length then
    .ok (x.map (fun xi => (List.range (nmax + 1)).map (fun j => evalOrtho xi (abf ab) j)))
  else
    .error "ConfigurationError: coefficients must contain at least nmax+1 rows"

theorem evaluate_ok_entry (x : List ℚ) (nmax : ℕ) (ab : List (ℚ × ℚ)) (P : List (List ℚ))
    (h : evaluate_orthonormal_polynomial_1d x nmax ab = .ok P) (k j : ℕ)
    (hk : k < x.length) (hj : j ≤ nmax) :
    (P.getD k []).getD j 0 = evalOrtho (x.getD k 0) (abf ab) j := by
  unfold evaluate_orthonormal_polynomial_1d at h
  split at h
  · cases h
    rw [getD_map_of_lt _ x k _ 0 hk, getD_map_range _ _ _ _ (by omega)]
  · cases h

theorem evaluate_ok_shape (x : List ℚ) (nmax : ℕ) (ab : List (ℚ × ℚ)) (P : List (List ℚ))
    (h : evaluate_orthonormal_polynomial_1d x nmax ab = .ok P) :
    P.length = x.length ∧ ∀ k, k < x.length → (P.getD k []).length = nmax + 1 := by
  unfold evaluate_orthonormal_polynomial_1d at h
  split at h
  · cases h
    constructor
    · simp
    · intro k hk
      rw [getD_map_of_lt _ x k _ 0 hk]
      simp
  · cases h

/-- C1: on a table with more than `nmax` rows, `evaluate_orthonormal_polynomial_1d`
returns a `(num_samples, nmax+1)` matrix whose degree-0 column is constantly
`1/β₀`, whose degree-1 column (when `nmax ≥ 1`) is `(x − α₀)·p₀ / β₁`, and whose
degree-`j` column for `2 ≤ j ≤ nmax` is
`((x − α_{j-1})·p_{j-1} − β_{j-1}·p_{j-2}) / β_j`: the normalization by `1/β_j`
is applied at every recurrence step. -/
theorem evaluate_orthonormal_polynomial_1d_spec
    (x : List ℚ) (nmax : ℕ) (ab : List (ℚ × ℚ)) (h : nmax < ab.length) :
    ∃ P, evaluate_orthonormal_polynomial_1d x nmax ab = .ok P ∧
      P.length = x.length ∧
      (∀ k, k < x.length → (P.getD k []).length = nmax + 1) ∧
      (∀ k, k < x.length → (P.getD k []).getD 0 0 = 1 / (abf ab 0).2) ∧
      (∀ k, k < x.length → 1 ≤ nmax →
        (P.getD k []).getD 1 0
          = (x.getD k 0 - (abf ab 0).1) * (P.getD k []).getD 0 0 / (abf ab 1).2) ∧
      (∀ k j, k < x.length → 2 ≤ j → j ≤ nmax →
        (P.getD k []).getD j 0
          = ((x.getD k 0 - (abf ab (j - 1)).1) * (P.getD k []).getD (j - 1) 0
              - (abf ab (j - 1)).2 * (P.getD k []).getD (j - 2) 0) / (abf ab j).2) := by
  refine ⟨x.map (fun xi => (List.range (nmax + 1)).map (fun j => evalOrtho xi (abf ab) j)),
    ?_, ?_, ?_, ?_, ?_, ?_⟩
  · unfold evaluate_orthonormal_polynomial_1d
    rw [if_pos h]
  · simp
  · intro k hk
    rw [getD_map_of_lt _ x k _ 0 hk]
    simp
  · intro k hk
    have hok : evaluate_orthonormal_polynomial_1d x nmax ab = .ok
        (x.map (fun xi => (List.range (nmax + 1)).map (fun j => evalOrtho xi (abf ab) j))) := by
      unfold evaluate_orthonormal_polynomial_1d
      rw [if_pos h]
    rw [evaluate_ok_entry x nmax ab _ hok k 0 hk (by omega)]
    rfl
  · intro k hk h1
    have hok : evaluate_orthonormal_polynomial_1d x nmax ab = .ok
        (x.map (fun xi => (List.range (nmax + 1)).map (fun j => evalOrtho xi (abf ab) j))) := by
      unfold evaluate_orthonormal_polynomial_1d
      rw [if_pos h]
    rw [evaluate_ok_entry x nmax ab _ hok k 0 hk (by omega),
      evaluate_ok_entry x nmax ab _ hok k 1 hk (by omega)]
    simp only [evalOrtho]
    rw [one_div_mul_eq_div]
  · intro k j hk h2 hj
    have hok : evaluate_orthonormal_polynomial_1d x nmax ab = .ok
        (x.map (fun xi => (List.range (nmax + 1)).map (fun j => evalOrtho xi (abf ab) j))) := by
      unfold evaluate_orthonormal_polynomial_1d
      rw [if_pos h]
    obtain ⟨m, rfl⟩ : ∃ m, j = m + 2 := ⟨j - 2, by omega⟩
    rw [evaluate_ok_entry x nmax ab _ hok k (m + 2) hk hj,
      evaluate_ok_entry x nmax ab _ hok k (m + 2 - 1) hk (by omega),
      evaluate_ok_entry x nmax ab _ hok k (m + 2 - 2) hk (by omega)]
    norm_num
    simp only [evalOrtho]
    rw [one_div_mul_eq_div]

/-- Witness for C1 at a concrete table and sample vector. -/
theorem evaluate_orthonormal_polynomial_1d_spec_witness :
    (2 : ℕ) < ([((0 : ℚ), 1), (0, 2), (0, 2)] : List (ℚ × ℚ)).length + 1 ∧
      ∃ P, evaluate_orthonormal_polynomial_1d [3] 2 [((0 : ℚ), 1), (0, 2), (0, 2)] = .ok P ∧
        P.length = [(3 : ℚ)].length ∧
        (∀ k, k < [(3 : ℚ)].length → (P.getD k []).length = 2 + 1) ∧
        (∀ k, k < [(3 : ℚ)].length →
          (P.getD k []).getD 0 0 = 1 / (abf [((0 : ℚ), 1), (0, 2), (0, 2)] 0).2) ∧
        (∀ k, k < [(3 : ℚ)].length → 1 ≤ 2 →
          (P.getD k []).getD 1 0
            = (([(3 : ℚ)].getD k 0) - (abf [((0 : ℚ), 1), (0, 2), (0, 2)] 0).1) *
                (P.getD k []).getD 0 0 / (abf [((0 : ℚ), 1), (0, 2), (0, 2)] 1).2) ∧
        (∀ k j, k < [(3 : ℚ)].length → 2 ≤ j → j ≤ 2 →
          (P.getD k []).getD j 0
            = (([(3 : ℚ)].getD k 0) - (abf [((0 : ℚ), 1), (0, 2), (0, 2)] (j - 1)).1) *
                  (P.getD k []).getD (j - 1) 0 / (abf [((0 : ℚ), 1), (0, 2), (0, 2)] j).2
              - (abf [((0 : ℚ), 1), (0, 2), (0, 2)] (j - 1)).2 *
                  (P.getD k []).getD (j - 2) 0 / (abf [((0 : ℚ), 1), (0, 2), (0, 2)] j).2) :=
  ⟨by decide, by
    obtain ⟨P, h1, h2, h3, h4, h5, h6⟩ :=
      evaluate_orthonormal_polynomial_1d_spec [3] 2 [((0 : ℚ), 1), (0, 2), (0, 2)] (by decide)
    exact ⟨P, h1, h2, h3, h4, h5, fun k j hk hj2 hjn => by
      rw [h6 k j hk hj2 hjn]; rw [sub_div]⟩⟩

/-! ### Gauss quadrature

Embeds `gauss_quadrature` (source lines 464-501).  The numpy eigensolver
`np.linalg.eigh` is an external library routine and is passed in as an
abstract function on the Jacobi matrix; the float expression `1/s` is
modelled by `finiteInv`, whose `none` value stands for the non-finite float
that `np.isfinite` masks out on line 500. -/

def jacobi_matrix (a b : ℕ → ℚ) (N : ℕ) : List (List ℚ) :=
  (List.range N).map (fun i => (List.range N).map (fun j =>
    if i = j then a i else if j = i + 1 then b j else if i = j + 1 then b i else 0))

def finiteInv (s : ℚ) : Option ℚ := if s = 0 then none else some (1 / s)

def gauss_quadrature (eig : List (List ℚ) → List ℚ) (ab : List (ℚ × ℚ)) (N : ℕ) :
    Except String (List ℚ × List ℚ) :=
  if 0 < N ∧ N ≤ ab.length then
    let x := eig (jacobi_matrix (fun i => (abf ab i).1) (fun i => (abf ab i).2) N)
    let wraw := x.map (fun xi =>
      finiteInv (((List.range N).map (fun j => (evalOrtho xi (abf ab) j) ^ 2)).sum))
    .ok (x, wraw.map (fun o => o.getD 0))
  else
    .error "ConfigurationError: require 0 < N and N <= recursion_coeffs.shape[0]"

/-- C7: `evaluate_orthonormal_polynomial_1d` fails when the coefficient table
has fewer than `nmax+1` rows, and `gauss_quadrature` fails when `N ≤ 0` or `N`
exceeds the number of coefficient rows; both checks sit at the entry of the
definition, before any computation. -/
theorem precondition_failures
    (x : List ℚ) (nmax : ℕ) (ab : List (ℚ × ℚ)) (eig : List (List ℚ) → List ℚ) (N : ℕ) :
    (ab.length < nmax + 1 →
      evaluate_orthonormal_polynomial_1d x nmax ab
        = .error "ConfigurationError: coefficients must contain at least nmax+1 rows") ∧
    (N = 0 ∨ ab.length < N →
      gauss_quadrature eig ab N
        = .error "ConfigurationError: require 0 < N and N <= recursion_coeffs.shape[0]") := by
  constructor
  · intro hlt
    unfold evaluate_orthonormal_polynomial_1d
    rw [if_neg (by omega)]
  · intro hN
    unfold gauss_quadrature
    rw [if_neg (by omega)]

/-- Witness for C7: both failure paths at concrete inputs. -/
theorem precondition_failures_witness :
    (([((0 : ℚ), 1)] : List (ℚ × ℚ)).length < 1 + 1 →
      evaluate_orthonormal_polynomial_1d [0] 1 [((0 : ℚ), 1)]
        = .error "ConfigurationError: coefficients must contain at least nmax+1 rows") ∧
    ((2 = 0 ∨ ([((0 : ℚ), 1)] : List (ℚ × ℚ)).length < 2) →
      gauss_quadrature (fun _ => []) [((0 : ℚ), 1)] 2
        = .error "ConfigurationError: require 0 < N and N <= recursion_coeffs.shape[0]") :=
  precondition_failures [0] 1 [((0 : ℚ), 1)] (fun _ => []) 2

theorem list_sum_sq_nonneg {α : Type} (l : List α) (f : α → ℚ) :
    0 ≤ (l.map (fun v => (f v) ^ 2)).sum := by
  induction l with
  | nil => simp
  | cons a t ih =>
    simp only [List.map_cons, List.sum_cons]
    have := sq_nonneg (f a)
    linarith

theorem finiteInv_getD_spec (s : ℚ) (hs : 0 ≤ s) :
    (finiteInv s).getD 0 = (if s = 0 then 0 else 1 / s) ∧ 0 ≤ (finiteInv s).getD 0 := by
  unfold finiteInv
  by_cases h : s = 0
  · simp [h]
  · have hpos : 0 < s := lt_of_le_of_ne hs (Ne.symm h)
    constructor
    · simp [h]
    · simp only [if_neg h, Option.getD_some]
      positivity

/-- C10: every weight returned by `gauss_quadrature` is an actual (finite)
number: it equals `1 / Σ_j p_j(node)²` over the orthonormal basis at the node
when that sum is nonzero, and the non-finite reciprocal produced at a
degenerate node (zero sum) is replaced by `0`; every returned weight is
non-negative in particular. -/
theorem gauss_quadrature_weights_finite
    (eig : List (List ℚ) → List ℚ) (ab : List (ℚ × ℚ)) (N : ℕ) (x w : List ℚ)
    (h : gauss_quadrature eig ab N = .ok (x, w)) :
    w.length = x.length ∧
    ∀ k, k < w.length →
      (w.getD k 0
          = (if ((List.range N).map (fun j => (evalOrtho (x.getD k 0) (abf ab) j) ^ 2)).sum = 0
             then 0
             else 1 / ((List.range N).map
                 (fun j => (evalOrtho (x.getD k 0) (abf ab) j) ^ 2)).sum)) ∧
      0 ≤ w.getD k 0 := by
  unfold gauss_quadrature at h
  split at h
  · simp only [Except.ok.injEq, Prod.mk.injEq] at h
    obtain ⟨hx, hw⟩ := h
    subst hx
    subst hw
    constructor
    · simp
    · intro k hk
      have hk' : k < (eig (jacobi_matrix (fun i => (abf ab i).1)
          (fun i => (abf ab i).2) N)).length := by
        simpa using hk
      rw [getD_map_of_lt _ _ k _ (some 0) (by simpa using hk),
        getD_map_of_lt _ _ k _ 0 hk']
      exact finiteInv_getD_spec _ (list_sum_sq_nonneg _ _)
  · cases h

/-- Witness for C10 at a concrete (abstractly eigensolved) quadrature rule. -/
theorem gauss_quadrature_weights_finite_witness :
    gauss_quadrature (fun _ => [0]) [((0 : ℚ), 1)] 1 = .ok ([0], [1]) ∧
    ([1] : List ℚ).length = ([0] : List ℚ).length ∧
    ∀ k, k < ([1] : List ℚ).length →
      (([1] : List ℚ).getD k 0
          = (if ((List.range 1).map
                (fun j => (evalOrtho (([0] : List ℚ).getD k 0) (abf [((0 : ℚ), 1)]) j) ^ 2)).sum = 0
             then 0
             else 1 / ((List.range 1).map
                 (fun j => (evalOrtho (([0] : List ℚ).getD k 0)
                   (abf [((0 : ℚ), 1)]) j) ^ 2)).sum)) ∧
      0 ≤ ([1] : List ℚ).getD k 0 :=
  ⟨by unfold gauss_quadrature; norm_num [finiteInv, abf, evalOrtho, List.range_succ],
    gauss_quadrature_weights_finite (fun _ => [0]) [((0 : ℚ), 1)] 1 [0] [1]
      (by unfold gauss_quadrature; norm_num [finiteInv, abf, evalOrtho, List.range_succ])⟩

/-! ### Two-term / three-term recurrence conversion

Embeds `evaluate_three_term_recurrence_polynomial_1d` (source lines 540-574)
and `convert_orthonormal_recurence_to_three_term_recurence` (577-606). -/

def evalThree {F : Type} [Field F] (x : F) (abc : ℕ → F × F × F) : ℕ → F
  | 0 => (abc 0).1
  | 1 => ((abc 1).1 * x - (abc 1).2.1) * evalThree x abc 0
  | j + 2 =>
    ((abc (j + 2)).1 * x - (abc (j + 2)).2.1) * evalThree x abc (j + 1)
      - (abc (j + 2)).2.2 * evalThree x abc j

def abcf (abc : List (ℚ × ℚ × ℚ)) : ℕ → ℚ × ℚ × ℚ := fun i => abc.getD i (0, 0, 0)

def evaluate_three_term_recurrence_polynomial_1d (abc : List (ℚ × ℚ × ℚ)) (nmax : ℕ)
    (x : List ℚ) : Except String (List (List ℚ)) :=
  if nmax < abc.length then
    .ok (x.map (fun xi => (List.range (nmax + 1)).map (fun j => evalThree xi (abcf abc) j)))
  else
    .error "ConfigurationError: nmax must be less than abc.shape[0]"

/-- `convert_orthonormal_recurence_to_three_term_recurence`: `abc[:,0] = 1/b`,
`abc[1:,1] = a[:-1]/b[1:]`, `abc[1:,2] = b[:-1]/b[1:]`, row 0 of the last two
columns keeps its zero initialisation. -/
def convert_orthonormal_recurence_to_three_term_recurence (ab : List (ℚ × ℚ)) :
    List (ℚ × ℚ × ℚ) :=
  (List.range ab.length).map (fun i =>
    (1 / (abf ab i).2,
     if i = 0 then 0 else (abf ab (i - 1)).1 / (abf ab i).2,
     if i = 0 then 0 else (abf ab (i - 1)).2 / (abf ab i).2))

theorem convert_three_entry (ab : List (ℚ × ℚ)) (i : ℕ) (h : i < ab.length) :
    abcf (convert_orthonormal_recurence_to_three_term_recurence ab) i
      = (1 / (abf ab i).2,
         if i = 0 then 0 else (abf ab (i - 1)).1 / (abf ab i).2,
         if i = 0 then 0 else (abf ab (i - 1)).2 / (abf ab i).2) := by
  unfold abcf convert_orthonormal_recurence_to_three_term_recurence
  exact getD_map_range _ _ _ _ h

theorem evalThree_convert (ab : List (ℚ × ℚ)) (x : ℚ) :
    ∀ j, j < ab.length →
      evalThree x (abcf (convert_orthonormal_recurence_to_three_term_recurence ab)) j
        = evalOrtho x (abf ab) j := by
  intro j
  induction j using Nat.twoStepInduction with
  | zero =>
    intro h
    simp only [evalThree, evalOrtho, convert_three_entry ab 0 h]
  | one =>
    intro h
    simp only [evalThree, evalOrtho, convert_three_entry ab 0 (by omega),
      convert_three_entry ab 1 h, if_neg one_ne_zero]
    simp only [div_eq_mul_inv, one_mul]
    ring
  | more j ihj ihj1 =>
    intro h
    simp only [evalThree, evalOrtho, convert_three_entry ab (j + 2) h,
      ihj (by omega), ihj1 (by omega)]
    norm_num
    simp only [div_eq_mul_inv, one_mul]
    ring

/-- C9: for a two-term table `ab` with nonzero β entries and `nmax` below its
row count, evaluating through the converted three-term coefficients returns
exactly the same matrix as `evaluate_orthonormal_polynomial_1d`: the
conversion is a pure re-indexing with no approximation. -/
theorem three_term_conversion_round_trip (ab : List (ℚ × ℚ)) (nmax : ℕ) (x : List ℚ)
    (h : nmax < ab.length) (hb : ∀ i, i < ab.length → (abf ab i).2 ≠ 0) :
    evaluate_three_term_recurrence_polynomial_1d
        (convert_orthonormal_recurence_to_three_term_recurence ab) nmax x
      = evaluate_orthonormal_polynomial_1d x nmax ab := by
  unfold evaluate_three_term_recurrence_polynomial_1d evaluate_orthonormal_polynomial_1d
  have hlen : (convert_orthonormal_recurence_to_three_term_recurence ab).length
      = ab.length := by
    unfold convert_orthonormal_recurence_to_three_term_recurence
    simp
  rw [hlen, if_pos h, if_pos h]
  refine congrArg _ (List.map_congr_left (fun xi _ => ?_))
  refine List.map_congr_left (fun j hj => ?_)
  exact evalThree_convert ab xi j (by simp at hj; omega)

/-- Witness for C9 at a concrete table. -/
theorem three_term_conversion_round_trip_witness :
    (1 : ℕ) < ([((0 : ℚ), 1), (1, 2)] : List (ℚ × ℚ)).length ∧
    (∀ i, i < ([((0 : ℚ), 1), (1, 2)] : List (ℚ × ℚ)).length →
      (abf [((0 : ℚ), 1), (1, 2)] i).2 ≠ 0) ∧
    evaluate_three_term_recurrence_polynomial_1d
        (convert_orthonormal_recurence_to_three_term_recurence [((0 : ℚ), 1), (1, 2)]) 1 [3]
      = evaluate_orthonormal_polynomial_1d [3] 1 [((0 : ℚ), 1), (1, 2)] :=
  ⟨by decide, by decide,
    three_term_conversion_round_trip [((0 : ℚ), 1), (1, 2)] 1 [3] (by decide) (by decide)⟩

/-! ### Monomial conversion

Embeds `convert_orthonormal_polynomials_to_monomials_1d` (source lines
503-536).  Row `jj ≥ 2` receives two slice updates:
`mc[jj,:jj] += (-a[jj-1]*mc[jj-1,:jj] - b[jj-1]*mc[jj-2,:jj]) / b[jj]` and
`mc[jj,1:jj+1] += mc[jj-1,:jj] / b[jj]`; the two guarded summands below are
exactly those two slice contributions. -/

def monomialCoefs (ab : ℕ → ℚ × ℚ) : ℕ → ℕ → ℚ
  | 0, i => if i = 0 then 1 / (ab 0).2 else 0
  | 1, i =>
      if i = 0 then -(ab 0).1 * (1 / (ab 0).2) / (ab 1).2
      else if i = 1 then 1 * (1 / (ab 0).2) / (ab 1).2
      else 0
  | j + 2, i =>
      (if i ≤ j + 1 then
        (-(ab (j + 1)).1 * monomialCoefs ab (j + 1) i
          - (ab (j + 1)).2 * monomialCoefs ab j i) / (ab (j + 2)).2
       else 0)
      + (if 1 ≤ i ∧ i ≤ j + 2 then monomialCoefs ab (j + 1) (i - 1) / (ab (j + 2)).2 else 0)

def convert_orthonormal_polynomials_to_monomials_1d (ab : List (ℚ × ℚ)) (nmax : ℕ) :
    Except String (List (List ℚ)) :=
  if nmax < ab.length then
    .ok ((List.range (nmax + 1)).map (fun j =>
      (List.range (nmax + 1)).map (fun i => monomialCoefs (abf ab) j i)))
  else
    .error "ConfigurationError: nmax must be less than ab.shape[0]"

theorem mc_triangular (ab : ℕ → ℚ × ℚ) : ∀ j i, j < i → monomialCoefs ab j i = 0
  | 0, i, h => by
    simp only [monomialCoefs]
    rw [if_neg (by omega : ¬ i = 0)]
  | 1, i, h => by
    simp only [monomialCoefs]
    rw [if_neg (by omega : ¬ i = 0), if_neg (by omega : ¬ i = 1)]
  | j + 2, i, h => by
    simp only [monomialCoefs]
    rw [if_neg (by omega : ¬ i ≤ j + 1), if_neg (by omega : ¬ (1 ≤ i ∧ i ≤ j + 2))]
    norm_num

theorem mc_poly_eval (ab : ℕ → ℚ × ℚ) (x : ℚ) :
    ∀ j, (Finset.range (j + 1)).sum (fun i => monomialCoefs ab j i * x ^ i)
      = evalOrtho x ab j := by
  intro j
  induction j using Nat.twoStepInduction with
  | zero =>
    simp [monomialCoefs, evalOrtho]
  | one =>
    rw [Finset.sum_range_succ, Finset.sum_range_one]
    simp [monomialCoefs, evalOrtho]
    ring
  | more j ihj ihj1 =>
    have hsum1 : (Finset.range (j + 3)).sum (fun i =>
        (if i ≤ j + 1 then
          (-(ab (j + 1)).1 * monomialCoefs ab (j + 1) i
            - (ab (j + 1)).2 * monomialCoefs ab j i) / (ab (j + 2)).2
         else 0) * x ^ i)
        = ((Finset.range (j + 2)).sum (fun i => monomialCoefs ab (j + 1) i * x ^ i))
            * (-(ab (j + 1)).1 / (ab (j + 2)).2)
          + ((Finset.range (j + 2)).sum (fun i => monomialCoefs ab j i * x ^ i))
            * (-(ab (j + 1)).2 / (ab (j + 2)).2) := by
      rw [Finset.sum_range_succ, if_neg (by omega : ¬ j + 2 ≤ j + 1), zero_mul, add_zero]
      have hpt : ∀ i ∈ Finset.range (j + 2),
          (if i ≤ j + 1 then
            (-(ab (j + 1)).1 * monomialCoefs ab (j + 1) i
              - (ab (j + 1)).2 * monomialCoefs ab j i) / (ab (j + 2)).2
           else 0) * x ^ i
            = monomialCoefs ab (j + 1) i * x ^ i * (-(ab (j + 1)).1 / (ab (j + 2)).2)
              + monomialCoefs ab j i * x ^ i * (-(ab (j + 1)).2 / (ab (j + 2)).2) := by
        intro i hi
        rw [if_pos (by
          have := Finset.mem_range.mp hi
          omega : i ≤ j + 1)]
        simp only [div_eq_mul_inv]
        ring
      rw [Finset.sum_congr rfl hpt, Finset.sum_add_distrib, ← Finset.sum_mul,
        ← Finset.sum_mul]
    have hsum2 : (Finset.range (j + 3)).sum (fun i =>
        (if 1 ≤ i ∧ i ≤ j + 2 then monomialCoefs ab (j + 1) (i - 1) / (ab (j + 2)).2 else 0)
          * x ^ i)
        = ((Finset.range (j + 2)).sum (fun i => monomialCoefs ab (j + 1) i * x ^ i))
            * (x / (ab (j + 2)).2) := by
      rw [Finset.sum_range_succ', if_neg (by omega : ¬ (1 ≤ 0 ∧ 0 ≤ j + 2)), zero_mul,
        add_zero]
      have hpt : ∀ i ∈ Finset.range (j + 2),
          (if 1 ≤ i + 1 ∧ i + 1 ≤ j + 2 then
            monomialCoefs ab (j + 1) (i + 1 - 1) / (ab (j + 2)).2
           else 0) * x ^ (i + 1)
            = monomialCoefs ab (j + 1) i * x ^ i * (x / (ab (j + 2)).2) := by
        intro i hi
        rw [if_pos ⟨by omega, by
          have := Finset.mem_range.mp hi
          omega⟩]
        simp only [Nat.add_sub_cancel, div_eq_mul_inv, pow_succ]
        ring
      rw [Finset.sum_congr rfl hpt, ← Finset.sum_mul]
    have htri : monomialCoefs ab j (j + 1) = 0 := mc_triangular ab j (j + 1) (by omega)
    have hKsum : (Finset.range (j + 2)).sum (fun i => monomialCoefs ab j i * x ^ i)
        = (Finset.range (j + 1)).sum (fun i => monomialCoefs ab j i * x ^ i) := by
      rw [Finset.sum_range_succ, htri, zero_mul, add_zero]
    simp only [monomialCoefs, add_mul, Finset.sum_add_distrib]
    rw [hsum1, hsum2, hKsum, ihj, ihj1]
    simp only [evalOrtho, div_eq_mul_inv, one_mul]
    ring

/-- C2: row `j` of the triangular matrix returned by
`convert_orthonormal_polynomials_to_monomials_1d`, evaluated as a polynomial
`Σ_i M[j,i]·x^i`, equals column `j` of `evaluate_orthonormal_polynomial_1d`
exactly (the claim's floating-point atol `1e-10` clause is subsumed by exact
equality of the underlying algorithms). -/
theorem orthonormal_to_monomials_round_trip
    (ab : List (ℚ × ℚ)) (nmax : ℕ) (x : List ℚ) (j k : ℕ)
    (h : nmax < ab.length) (hj : j ≤ nmax) (hk : k < x.length) :
    ∃ M P, convert_orthonormal_polynomials_to_monomials_1d ab nmax = .ok M ∧
      evaluate_orthonormal_polynomial_1d x nmax ab = .ok P ∧
      (Finset.range (nmax + 1)).sum
          (fun i => (M.getD j []).getD i 0 * (x.getD k 0) ^ i)
        = (P.getD k []).getD j 0 := by
  refine ⟨(List.range (nmax + 1)).map (fun j =>
      (List.range (nmax + 1)).map (fun i => monomialCoefs (abf ab) j i)),
    x.map (fun xi => (List.range (nmax + 1)).map (fun j => evalOrtho xi (abf ab) j)),
    ?_, ?_, ?_⟩
  · unfold convert_orthonormal_polynomials_to_monomials_1d
    rw [if_pos h]
  · unfold evaluate_orthonormal_polynomial_1d
    rw [if_pos h]
  · have hok : evaluate_orthonormal_polynomial_1d x nmax ab = .ok
        (x.map (fun xi => (List.range (nmax + 1)).map (fun j => evalOrtho xi (abf ab) j))) := by
      unfold evaluate_orthonormal_polynomial_1d
      rw [if_pos h]
    rw [evaluate_ok_entry x nmax ab _ hok k j hk hj]
    have hrw : (Finset.range (nmax + 1)).sum (fun i =>
        ((((List.range (nmax + 1)).map (fun j => (List.range (nmax + 1)).map
          (fun i => monomialCoefs (abf ab) j i))).getD j []).getD i 0) * (x.getD k 0) ^ i)
        = (Finset.range (nmax + 1)).sum
            (fun i => monomialCoefs (abf ab) j i * (x.getD k 0) ^ i) :=
      Finset.sum_congr rfl (fun i hi => by
        rw [getD_map_range _ _ _ _ (by omega : j < nmax + 1),
          getD_map_range _ _ _ _ (Finset.mem_range.mp hi)])
    rw [hrw]
    rw [← Finset.sum_subset (Finset.range_subset.mpr (by omega : j + 1 ≤ nmax + 1))
      (fun i hit hni => by
        have hji : j < i := by
          rcases Nat.lt_or_ge j i with hlt | hge
          · exact hlt
          · exact absurd (Finset.mem_range.mpr (by omega)) hni
        rw [mc_triangular (abf ab) j i hji, zero_mul])]
    exact mc_poly_eval (abf ab) (x.getD k 0) j

/-- Witness for C2 at a concrete table, sample and degree. -/
theorem orthonormal_to_monomials_round_trip_witness :
    (1 : ℕ) < ([((0 : ℚ), 1), (1, 2)] : List (ℚ × ℚ)).length ∧
    ∃ M P, convert_orthonormal_polynomials_to_monomials_1d [((0 : ℚ), 1), (1, 2)] 1 = .ok M ∧
      evaluate_orthonormal_polynomial_1d [3] 1 [((0 : ℚ), 1), (1, 2)] = .ok P ∧
      (Finset.range (1 + 1)).sum
          (fun i => (M.getD 1 []).getD i 0 * (([3] : List ℚ).getD 0 0) ^ i)
        = (P.getD 0 []).getD 1 0 :=
  ⟨by decide,
    orthonormal_to_monomials_round_trip [((0 : ℚ), 1), (1, 2)] 1 [3] 1 0
      (by decide) (by decide) (by decide)⟩

/-! ### Derivative evaluation

Embeds `evaluate_orthonormal_polynomial_deriv_1d` (source lines 438-461) over
`ℝ`: block 0 of the result is the plain evaluation, and each further block of
`nmax+1` columns is filled by `pdOrder`, whose three branches are the
`jj < deriv_num` zero-fill, the `jj == deriv_num` log-domain constant and the
general recurrence (`pd[:,jj] *= 1.0/b[jj]` folded into the division).
`gammaln` is scipy's `log |Γ|`. -/

noncomputable def gammaln (x : ℝ) : ℝ := Real.log |Real.Gamma x|

def abfR (ab : List (ℝ × ℝ)) : ℕ → ℝ × ℝ := fun i => ab.getD i (0, 0)

noncomputable def pdOrder (x : ℝ) (a b : ℕ → ℝ) (dnum : ℕ) (prev : ℕ → ℝ) (j : ℕ) : ℝ :=
  if h1 : j < dnum then 0
  else if h2 : j = dnum then
    Real.exp (gammaln ((dnum : ℝ) + 1)
      - 0.5 * (Finset.range (j + 1)).sum (fun i => Real.log ((b i) ^ 2)))
  else
    ((x - a (j - 1)) * pdOrder x a b dnum prev (j - 1)
      - b (j - 1) * pdOrder x a b dnum prev (j - 2) + (dnum : ℝ) * prev (j - 1)) / b j
  termination_by j
  decreasing_by
  · omega
  · omega

noncomputable def pderiv (x : ℝ) (a b : ℕ → ℝ) : ℕ → ℕ → ℝ
  | 0, j => evalOrtho x (fun i => (a i, b i)) j
  | d + 1, j => pdOrder x a b (d + 1) (pderiv x a b d) j

noncomputable def evaluate_orthonormal_polynomial_deriv_1d (x : List ℝ) (nmax : ℕ)
    (ab : List (ℝ × ℝ)) (deriv_order : ℕ) : List (List ℝ) :=
  x.map (fun xi =>
    ((List.range (deriv_order + 1)).map (fun dd => (List.range (nmax + 1)).map
      (fun j => pderiv xi (fun i => (abfR ab i).1) (fun i => (abfR ab i).2) dd j))).flatten)

noncomputable def derivEntry (x : List ℝ) (nmax : ℕ) (ab : List (ℝ × ℝ))
    (deriv_order k c : ℕ) : ℝ :=
  ((evaluate_orthonormal_polynomial_deriv_1d x nmax ab deriv_order).getD k []).getD c 0

theorem derivEntry_eq_pderiv (x : List ℝ) (nmax : ℕ) (ab : List (ℝ × ℝ))
    (dord k d j : ℕ) (hk : k < x.length) (hd : d ≤ dord) (hj : j ≤ nmax) :
    derivEntry x nmax ab dord k (d * (nmax + 1) + j)
      = pderiv (x.getD k 0) (fun i => (abfR ab i).1) (fun i => (abfR ab i).2) d j := by
  unfold derivEntry evaluate_orthonormal_polynomial_deriv_1d
  rw [getD_map_of_lt _ x k _ 0 hk]
  exact getD_flatten_blocks 0 d (dord + 1) (nmax + 1) _ j (by omega) (by omega)

theorem pdOrder_zero_col (x : ℝ) (a b : ℕ → ℝ) (dnum : ℕ) (prev : ℕ → ℝ) (j : ℕ)
    (h : j < dnum) : pdOrder x a b dnum prev j = 0 := by
  rw [pdOrder]
  rw [dif_pos h]

theorem pdOrder_diag (x : ℝ) (a b : ℕ → ℝ) (dnum : ℕ) (prev : ℕ → ℝ) :
    pdOrder x a b dnum prev dnum
      = Real.exp (gammaln ((dnum : ℝ) + 1)
          - 0.5 * (Finset.range (dnum + 1)).sum (fun i => Real.log ((b i) ^ 2))) := by
  rw [pdOrder]
  rw [dif_neg (by omega), dif_pos rfl]

theorem pdOrder_rec (x : ℝ) (a b : ℕ → ℝ) (dnum : ℕ) (prev : ℕ → ℝ) (j : ℕ)
    (h : dnum < j) :
    pdOrder x a b dnum prev j
      = ((x - a (j - 1)) * pdOrder x a b dnum prev (j - 1)
          - b (j - 1) * pdOrder x a b dnum prev (j - 2) + (dnum : ℝ) * prev (j - 1)) / b j := by
  conv_lhs => rw [pdOrder]
  rw [dif_neg (by omega), dif_neg (by omega)]

/-- C8: in the output of `evaluate_orthonormal_polynomial_deriv_1d`, for every
derivative order `1 ≤ d ≤ deriv_order`: the columns of degree below `d` in the
order-`d` block are zero; the degree-`d` column is the constant
`exp(gammaln(d+1) − Σ_{i≤d} log β_i)` (i.e. `d!` divided by the product of
`β₀..β_d`, computed in the log domain) provided the β entries are positive;
and every degree-`j` column with `j > d` equals
`((x − α_{j-1})·p⁽ᵈ⁾_{j-1} − β_{j-1}·p⁽ᵈ⁾_{j-2} + d·p⁽ᵈ⁻¹⁾_{j-1}) / β_j`,
combining the block with the lower-derivative-order block. -/
theorem deriv_block_structure
    (x : List ℝ) (nmax : ℕ) (ab : List (ℝ × ℝ)) (dord k d : ℕ)
    (hk : k < x.length) (hd1 : 1 ≤ d) (hd2 : d ≤ dord)
    (hb : ∀ i, i ≤ nmax → 0 < (abfR ab i).2) :
    (∀ j, j < d → j ≤ nmax → derivEntry x nmax ab dord k (d * (nmax + 1) + j) = 0) ∧
    (d ≤ nmax →
      derivEntry x nmax ab dord k (d * (nmax + 1) + d)
        = Real.exp (gammaln ((d : ℝ) + 1)
            - (Finset.range (d + 1)).sum (fun i => Real.log ((abfR ab i).2))) ∧
      derivEntry x nmax ab dord k (d * (nmax + 1) + d)
        = (d.factorial : ℝ) / (Finset.range (d + 1)).prod (fun i => (abfR ab i).2)) ∧
    (∀ j, d < j → j ≤ nmax →
      derivEntry x nmax ab dord k (d * (nmax + 1) + j)
        = ((x.getD k 0 - (abfR ab (j - 1)).1)
              * derivEntry x nmax ab dord k (d * (nmax + 1) + (j - 1))
            - (abfR ab (j - 1)).2 * derivEntry x nmax ab dord k (d * (nmax + 1) + (j - 2))
            + (d : ℝ) * derivEntry x nmax ab dord k ((d - 1) * (nmax + 1) + (j - 1)))
          / (abfR ab j).2) := by
  obtain ⟨d', rfl⟩ : ∃ d', d = d' + 1 := ⟨d - 1, by omega⟩
  refine ⟨?_, ?_, ?_⟩
  · intro j hjd hjn
    rw [derivEntry_eq_pderiv x nmax ab dord k _ j hk hd2 hjn]
    exact pdOrder_zero_col _ _ _ _ _ j hjd
  · intro hdn
    rw [derivEntry_eq_pderiv x nmax ab dord k _ _ hk hd2 hdn]
    show pdOrder _ _ _ (d' + 1) _ (d' + 1) = _ ∧ pdOrder _ _ _ (d' + 1) _ (d' + 1) = _
    rw [pdOrder_diag]
    have hlog : (Finset.range (d' + 1 + 1)).sum
        (fun i => Real.log (((abfR ab i).2) ^ 2))
        = 2 * (Finset.range (d' + 1 + 1)).sum (fun i => Real.log ((abfR ab i).2)) := by
      rw [Finset.mul_sum]
      exact Finset.sum_congr rfl (fun i _ => by
        rw [Real.log_pow]
        norm_num)
    have h05 : (0.5 : ℝ) * (2 * (Finset.range (d' + 1 + 1)).sum
        (fun i => Real.log ((abfR ab i).2)))
        = (Finset.range (d' + 1 + 1)).sum (fun i => Real.log ((abfR ab i).2)) := by
      rw [show (0.5 : ℝ) = 1 / 2 by norm_num]
      ring
    rw [hlog, h05]
    refine ⟨rfl, ?_⟩
    have hgam : gammaln (((d' + 1 : ℕ) : ℝ) + 1) = Real.log (((d' + 1).factorial : ℝ)) := by
      unfold gammaln
      rw [Real.Gamma_nat_eq_factorial, abs_of_pos (by positivity)]
    rw [hgam, Real.exp_sub, Real.exp_log (by positivity), Real.exp_sum]
    congr 1
    refine Finset.prod_congr rfl (fun i hi => ?_)
    exact Real.exp_log (hb i (by
      have := Finset.mem_range.mp hi
      omega))
  · intro j hdj hjn
    rw [derivEntry_eq_pderiv x nmax ab dord k _ j hk hd2 hjn,
      derivEntry_eq_pderiv x nmax ab dord k _ (j - 1) hk hd2 (by omega),
      derivEntry_eq_pderiv x nmax ab dord k _ (j - 2) hk hd2 (by omega),
      derivEntry_eq_pderiv x nmax ab dord k (d' + 1 - 1) (j - 1) hk (by omega) (by omega)]
    exact pdOrder_rec _ _ _ _ _ j hdj

/-- Witness for C8 at a concrete table, sample and derivative order. -/
theorem deriv_block_structure_witness :
    (0 : ℕ) < ([(0 : ℝ)] : List ℝ).length ∧
    (∀ i, i ≤ 2 → 0 < (abfR [((0 : ℝ), 1), (0, 1), (0, 1)] i).2) ∧
    ((∀ j, j < 1 → j ≤ 2 →
        derivEntry [(0 : ℝ)] 2 [((0 : ℝ), 1), (0, 1), (0, 1)] 1 0 (1 * (2 + 1) + j) = 0) ∧
      (1 ≤ 2 →
        derivEntry [(0 : ℝ)] 2 [((0 : ℝ), 1), (0, 1), (0, 1)] 1 0 (1 * (2 + 1) + 1)
          = Real.exp (gammaln ((1 : ℝ) + 1)
              - (Finset.range (1 + 1)).sum
                  (fun i => Real.log ((abfR [((0 : ℝ), 1), (0, 1), (0, 1)] i).2))) ∧
        derivEntry [(0 : ℝ)] 2 [((0 : ℝ), 1), (0, 1), (0, 1)] 1 0 (1 * (2 + 1) + 1)
          = ((1 : ℕ).factorial : ℝ) / (Finset.range (1 + 1)).prod
              (fun i => (abfR [((0 : ℝ), 1), (0, 1), (0, 1)] i).2)) ∧
      (∀ j, 1 < j → j ≤ 2 →
        derivEntry [(0 : ℝ)] 2 [((0 : ℝ), 1), (0, 1), (0, 1)] 1 0 (1 * (2 + 1) + j)
          = ((([(0 : ℝ)] : List ℝ).getD 0 0 - (abfR [((0 : ℝ), 1), (0, 1), (0, 1)] (j - 1)).1)
                * derivEntry [(0 : ℝ)] 2 [((0 : ℝ), 1), (0, 1), (0, 1)] 1 0 (1 * (2 + 1) + (j - 1))
              - (abfR [((0 : ℝ), 1), (0, 1), (0, 1)] (j - 1)).2
                * derivEntry [(0 : ℝ)] 2 [((0 : ℝ), 1), (0, 1), (0, 1)] 1 0 (1 * (2 + 1) + (j - 2))
              + (1 : ℝ) * derivEntry [(0 : ℝ)] 2 [((0 : ℝ), 1), (0, 1), (0, 1)] 1 0
                  ((1 - 1) * (2 + 1) + (j - 1)))
            / (abfR [((0 : ℝ), 1), (0, 1), (0, 1)] j).2)) := by
  have hb : ∀ i, i ≤ 2 → 0 < (abfR [((0 : ℝ), 1), (0, 1), (0, 1)] i).2 := by
    intro i hi
    interval_cases i <;> norm_num [abfR]
  refine ⟨by norm_num, hb, ?_⟩
  have h := deriv_block_structure [(0 : ℝ)] 2 [((0 : ℝ), 1), (0, 1), (0, 1)] 1 0 1
    (by norm_num) (le_refl 1) (le_refl 1) hb
  exact_mod_cast h

/-! ### Migliorati adaptive sampling (modelled from the spec) -/

/-- Modelled from the spec: the condition-number-controlled growth loop shared
by `generate_induced_samples_migliorati_tolerance` and
`increment_induced_samples_migliorati` of `pyapprox.induced_sampling` — that
module is not under `src/`, only its tests are.  Spec §4.4: the routine grows
a sample set (rejection sampling against the Christoffel density) until
`compute_preconditioned_basis_matrix_condition_number(...) < cond_tol`, and
must not return before the bound holds.  `cond_number` and `grow` stand for
the condition-number computation and one growth step on the accumulating
sample set; `fuel` bounds the re-draw loop (spec §5), `none` modelling the
fatal `ConvergenceFailure`. -/
def migliorati_sample_loop {α : Type} (cond_number : α → ℚ) (grow : α → α)
    (cond_tol : ℚ) : ℕ → α → Option α
  | 0, _ => none
  | fuel + 1, s =>
    if cond_number s < cond_tol then some s
    else migliorati_sample_loop cond_number grow cond_tol fuel (grow s)

/-- Modelled from the spec: `generate_induced_samples_migliorati_tolerance`
draws an initial batch and keeps growing it until the conditioning bound
holds. -/
def generate_induced_samples_migliorati_tolerance {α : Type} (cond_number : α → ℚ)
    (grow : α → α) (cond_tol : ℚ) (fuel : ℕ) (empty : α) : Option α :=
  migliorati_sample_loop cond_number grow cond_tol fuel (grow empty)

/-- Modelled from the spec: `increment_induced_samples_migliorati` extends an
existing sample set after the index set has grown, again returning only under
the conditioning bound. -/
def increment_induced_samples_migliorati {α : Type} (cond_number : α → ℚ)
    (grow : α → α) (cond_tol : ℚ) (fuel : ℕ) (existing : α) : Option α :=
  migliorati_sample_loop cond_number grow cond_tol fuel (grow existing)

theorem migliorati_loop_post {α : Type} (cond_number : α → ℚ) (grow : α → α)
    (cond_tol : ℚ) :
    ∀ fuel s t, migliorati_sample_loop cond_number grow cond_tol fuel s = some t →
      cond_number t < cond_tol := by
  intro fuel
  induction fuel with
  | zero =>
    intro s t h
    simp [migliorati_sample_loop] at h
  | succ fuel ih =>
    intro s t h
    unfold migliorati_sample_loop at h
    split at h
    · cases h
      assumption
    · exact ih _ _ h

/-- C3: whenever either Migliorati entry point returns a sample set, the
condition number computed from the returned samples is strictly below
`cond_tol`; neither entry point can return before the bound holds. -/
theorem migliorati_cond_tol_invariant {α : Type} (cond_number : α → ℚ) (grow : α → α)
    (cond_tol : ℚ) (fuel : ℕ) (init : α) (t : α) :
    (generate_induced_samples_migliorati_tolerance cond_number grow cond_tol fuel init
        = some t → cond_number t < cond_tol) ∧
    (increment_induced_samples_migliorati cond_number grow cond_tol fuel init
        = some t → cond_number t < cond_tol) :=
  ⟨fun h => migliorati_loop_post cond_number grow cond_tol fuel (grow init) t h,
   fun h => migliorati_loop_post cond_number grow cond_tol fuel (grow init) t h⟩

/-- Witness for C3 on a concrete instantiation where the loop really runs. -/
theorem migliorati_cond_tol_invariant_witness :
    generate_induced_samples_migliorati_tolerance
        (fun (n : ℕ) => if 6 ≤ n then (0 : ℚ) else 10) Nat.succ 5 20 0 = some 6 ∧
    increment_induced_samples_migliorati
        (fun (n : ℕ) => if 6 ≤ n then (0 : ℚ) else 10) Nat.succ 5 20 0 = some 6 ∧
    (generate_induced_samples_migliorati_tolerance
        (fun (n : ℕ) => if 6 ≤ n then (0 : ℚ) else 10) Nat.succ 5 20 0 = some 6 →
      (if 6 ≤ 6 then (0 : ℚ) else 10) < 5) ∧
    (increment_induced_samples_migliorati
        (fun (n : ℕ) => if 6 ≤ n then (0 : ℚ) else 10) Nat.succ 5 20 0 = some 6 →
      (if 6 ≤ 6 then (0 : ℚ) else 10) < 5) :=
  ⟨by decide, by decide,
   (migliorati_cond_tol_invariant
     (fun (n : ℕ) => if 6 ≤ n then (0 : ℚ) else 10) Nat.succ 5 20 0 6).1,
   (migliorati_cond_tol_invariant
     (fun (n : ℕ) => if 6 ≤ n then (0 : ℚ) else 10) Nat.succ 5 20 0 6).2⟩

/-! ### Recurrence coefficient providers

Embeds the six family providers (source lines 6-287) over `ℝ`.  `np.sqrt`
applied to the β column is modelled by `rsqrt`, whose `none` value is the NaN
that numpy returns on a negative radicand.  Each family's Python `assert`
statements come before its `N < 1` early return, exactly as in the source;
families without asserts return a plain list. -/

noncomputable def rsqrt (v : ℝ) : Option ℝ := if v < 0 then none else some (Real.sqrt v)

noncomputable def charlier_recurrence (N : ℕ) (a : ℝ) : List (ℝ × Option ℝ) :=
  if N < 1 then []
  else (List.range (N + 1)).map (fun (i : ℕ) =>
    if i = 0 then (a, rsqrt 1) else (a + (i : ℝ), rsqrt (a * (i : ℝ))))

noncomputable def discrete_chebyshev_recurrence (N Ntrials : ℕ) :
    Except String (List (ℝ × Option ℝ)) :=
  if ¬ N ≤ Ntrials then .error "AssertionError: N <= Ntrials"
  else if N < 1 then .ok []
  else .ok ((List.range N).map (fun (i : ℕ) =>
    (0.5 * (Ntrials : ℝ) * (1 - 1 / (Ntrials : ℝ)),
     if i = 0 then some 1
     else rsqrt (0.25 * (Ntrials : ℝ) ^ 2 * (1 - ((i : ℝ) / (Ntrials : ℝ)) ^ 2)
       / (4 - 1 / (i : ℝ) ^ 2)))))

noncomputable def hahnAn (N : ℕ) (alphaPoly betaPoly : ℝ) (n : ℕ) : ℝ :=
  ((alphaPoly + (n : ℝ) + 1) * ((N : ℝ) - (n : ℝ)) * ((n : ℝ) + alphaPoly + betaPoly + 1))
    / ((alphaPoly + betaPoly + 2 * (n : ℝ) + 1) * (alphaPoly + betaPoly + 2 * (n : ℝ) + 2))

noncomputable def hahnCn (N : ℕ) (alphaPoly betaPoly : ℝ) (n : ℕ) : ℝ :=
  ((n : ℝ) * (betaPoly + (n : ℝ)) * ((N : ℝ) + alphaPoly + betaPoly + (n : ℝ) + 1))
    / ((alphaPoly + betaPoly + 2 * (n : ℝ) + 1) * (alphaPoly + betaPoly + 2 * (n : ℝ)))

noncomputable def hahn_recurrence (Nterms N : ℕ) (alphaPoly betaPoly : ℝ) :
    Except String (List (ℝ × Option ℝ)) :=
  if ¬ Nterms ≤ N then .error "AssertionError: Nterms <= N"
  else if Nterms < 1 then .ok []
  else if Nterms = 1 then
    .ok [(hahnAn N alphaPoly betaPoly 0 + hahnCn N alphaPoly betaPoly 0, some 1)]
  else .ok ((List.range Nterms).map (fun (n : ℕ) =>
    (hahnAn N alphaPoly betaPoly n + hahnCn N alphaPoly betaPoly n,
     if n = 0 then some 1
     else rsqrt (hahnAn N alphaPoly betaPoly (n - 1) * hahnCn N alphaPoly betaPoly n))))

noncomputable def krawtchouk_recurrence (Nterms Ntrials : ℕ) (p : ℝ) :
    Except String (List (ℝ × Option ℝ)) :=
  if ¬ Nterms ≤ Ntrials then .error "AssertionError: Nterms <= Ntrials"
  else if ¬ (0 < p ∧ p < 1) then .error "AssertionError: p in (0,1)"
  else if Nterms < 1 then .ok []
  else .ok ((List.range Nterms).map (fun (n : ℕ) =>
    (p * ((Ntrials : ℝ) - (n : ℝ)) + (n : ℝ) * (1 - p),
     if n = 0 then some 1
     else rsqrt (p * (1 - p) * (n : ℝ) * ((Ntrials : ℝ) - (n : ℝ) + 1)))))

noncomputable def jacobi_recurrence (N : ℕ) (alpha beta : ℝ) (probability : Bool) :
    List (ℝ × Option ℝ) :=
  if N < 1 then []
  else (List.range N).map (fun (i : ℕ) =>
    let row : ℝ × ℝ :=
      if i = 0 then
        ((beta - alpha) / (alpha + beta + 2),
         Real.exp ((alpha + beta + 1) * Real.log 2 + gammaln (alpha + 1)
           + gammaln (beta + 1) - gammaln (alpha + beta + 2)))
      else if i = 1 then
        ((beta ^ 2 - alpha ^ 2) / ((2 + alpha + beta) * (4 + alpha + beta)),
         4 * (alpha + 1) * (beta + 1) / ((alpha + beta + 2) ^ 2 * (alpha + beta + 3)))
      else
        ((beta ^ 2 - alpha ^ 2)
           / ((2 * (i : ℝ) + alpha + beta) * (2 * (i : ℝ) + alpha + beta + 2)),
         4 * (i : ℝ) * ((i : ℝ) + alpha) * ((i : ℝ) + beta) * ((i : ℝ) + alpha + beta)
           / ((2 * (i : ℝ) + alpha + beta) ^ 2 * (2 * (i : ℝ) + alpha + beta + 1)
             * (2 * (i : ℝ) + alpha + beta - 1)))
    (row.1, if probability = true ∧ i = 0 then some 1 else rsqrt row.2))

noncomputable def hermite_recurrence (Nterms : ℕ) (rho : ℝ) (probability : Bool) :
    List (ℝ × Option ℝ) :=
  if Nterms < 1 then []
  else (List.range Nterms).map (fun (i : ℕ) =>
    let bsq : ℝ :=
      (if i = 0 then Real.Gamma (rho + 1 / 2)
       else if rho = 0 ∧ probability = true then (i : ℝ) else 0.5 * (i : ℝ))
      + (if i % 2 = 1 then rho else 0)
    (0, if probability = true ∧ i = 0 then some 1 else rsqrt bsq))

/-- Counterexample for C4: for Jacobi with `α = β = 0` (`probability=False`)
the normalization constant `2^{α+β+1}·B(α+1,β+1)` equals `2`, but the
returned first β entry is `√2`, because the whole β column — row 0 included —
is square-rooted before the table is returned (source line 240). -/
theorem beta0_not_normalization_constant :
    ((jacobi_recurrence 1 0 0 false).getD 0 (0, none)).2
      ≠ some ((2 : ℝ) ^ ((0 : ℝ) + 0 + 1)
          * (Real.Gamma (0 + 1) * Real.Gamma (0 + 1) / Real.Gamma (0 + 0 + 2))) := by
  have hg1 : Real.Gamma (1 : ℝ) = 1 := Real.Gamma_one
  have hg2 : Real.Gamma (2 : ℝ) = 1 := by
    norm_num
  have hgl1 : gammaln (1 : ℝ) = 0 := by
    unfold gammaln
    rw [hg1]
    norm_num
  have hgl2 : gammaln (2 : ℝ) = 0 := by
    unfold gammaln
    rw [hg2]
    norm_num
  have hrow : (jacobi_recurrence 1 0 0 false).getD 0 (0, none)
      = (((0 : ℝ) - 0) / (0 + 0 + 2),
         rsqrt (Real.exp (((0 : ℝ) + 0 + 1) * Real.log 2 + gammaln ((0 : ℝ) + 1)
           + gammaln ((0 : ℝ) + 1) - gammaln ((0 : ℝ) + 0 + 2)))) := by
    simp only [jacobi_recurrence, if_neg (by omega : ¬ (1 : ℕ) < 1)]
    rw [getD_map_range _ _ _ _ (by omega : (0 : ℕ) < 1)]
    norm_num
  have hlhs : ((jacobi_recurrence 1 0 0 false).getD 0 (0, none)).2
      = some (Real.sqrt 2) := by
    rw [hrow]
    show rsqrt _ = _
    norm_num [hgl1, hgl2]
    rw [Real.exp_log (by norm_num : (0 : ℝ) < 2)]
    unfold rsqrt
    rw [if_neg (by norm_num : ¬ (2 : ℝ) < 0)]
  have hrhs : ((2 : ℝ) ^ ((0 : ℝ) + 0 + 1)
      * (Real.Gamma (0 + 1) * Real.Gamma (0 + 1) / Real.Gamma (0 + 0 + 2))) = 2 := by
    norm_num [hg1, hg2]
  rw [hlhs, hrhs]
  intro h
  have h2 : Real.sqrt 2 = 2 := Option.some.inj h
  have hsq := Real.sq_sqrt (by norm_num : (0 : ℝ) ≤ 2)
  rw [h2] at hsq
  norm_num at hsq

/-- C4 as amended: the first β entry of the returned table is the *square
root* of the normalization constant of the family (the pre-sqrt row-0 value
is the integral of the weight function): `√(2^{α+β+1}·B(α+1,β+1))` for Jacobi
and `√Γ(ρ+1/2)` for Hermite, in non-probability mode. -/
theorem beta0_sqrt_normalization_constant
    (N : ℕ) (alpha beta rho : ℝ) (hN : 1 ≤ N)
    (ha : -1 < alpha) (hb : -1 < beta) (hr : -(1 / 2) < rho) :
    ((jacobi_recurrence N alpha beta false).getD 0 (0, none)).2
      = some (Real.sqrt ((2 : ℝ) ^ (alpha + beta + 1)
          * (Real.Gamma (alpha + 1) * Real.Gamma (beta + 1)
            / Real.Gamma (alpha + beta + 2)))) ∧
    ((hermite_recurrence N rho false).getD 0 (0, none)).2
      = some (Real.sqrt (Real.Gamma (rho + 1 / 2))) := by
  have hga : 0 < Real.Gamma (alpha + 1) := Real.Gamma_pos_of_pos (by linarith)
  have hgb : 0 < Real.Gamma (beta + 1) := Real.Gamma_pos_of_pos (by linarith)
  have hgab : 0 < Real.Gamma (alpha + beta + 2) := Real.Gamma_pos_of_pos (by linarith)
  have hgr : 0 < Real.Gamma (rho + 1 / 2) := Real.Gamma_pos_of_pos (by linarith)
  constructor
  · have hexp : Real.exp ((alpha + beta + 1) * Real.log 2 + gammaln (alpha + 1)
        + gammaln (beta + 1) - gammaln (alpha + beta + 2))
        = (2 : ℝ) ^ (alpha + beta + 1)
          * (Real.Gamma (alpha + 1) * Real.Gamma (beta + 1)
            / Real.Gamma (alpha + beta + 2)) := by
      unfold gammaln
      rw [abs_of_pos hga, abs_of_pos hgb, abs_of_pos hgab, Real.exp_sub, Real.exp_add,
        Real.exp_add, Real.exp_log hga, Real.exp_log hgb, Real.exp_log hgab,
        Real.rpow_def_of_pos (by norm_num : (0 : ℝ) < 2), mul_comm (Real.log 2)]
      ring
    have hrow : (jacobi_recurrence N alpha beta false).getD 0 (0, none)
        = ((beta - alpha) / (alpha + beta + 2),
           rsqrt (Real.exp ((alpha + beta + 1) * Real.log 2 + gammaln (alpha + 1)
             + gammaln (beta + 1) - gammaln (alpha + beta + 2)))) := by
      simp only [jacobi_recurrence, if_neg (by omega : ¬ N < 1)]
      rw [getD_map_range _ _ _ _ (by omega : 0 < N)]
      norm_num
    rw [hrow]
    show rsqrt _ = _
    unfold rsqrt
    rw [if_neg (not_lt.mpr (Real.exp_pos _).le), hexp]
  · have hrow : (hermite_recurrence N rho false).getD 0 (0, none)
        = (0, rsqrt (Real.Gamma (rho + 1 / 2) + 0)) := by
      simp only [hermite_recurrence, if_neg (by omega : ¬ N < 1)]
      rw [getD_map_range _ _ _ _ (by omega : 0 < N)]
      norm_num
    rw [hrow]
    show rsqrt _ = _
    rw [add_zero]
    unfold rsqrt
    rw [if_neg (not_lt.mpr hgr.le)]

/-- Witness for the amended C4 at `N = 1`, `α = β = 0`, `ρ = 0`. -/
theorem beta0_sqrt_normalization_constant_witness :
    ((jacobi_recurrence 1 0 0 false).getD 0 (0, none)).2
      = some (Real.sqrt ((2 : ℝ) ^ ((0 : ℝ) + 0 + 1)
          * (Real.Gamma (0 + 1) * Real.Gamma (0 + 1) / Real.Gamma (0 + 0 + 2)))) ∧
    ((hermite_recurrence 1 0 false).getD 0 (0, none)).2
      = some (Real.sqrt (Real.Gamma (0 + 1 / 2))) :=
  beta0_sqrt_normalization_constant 1 0 0 0 (le_refl 1)
    (by norm_num) (by norm_num) (by norm_num)

theorem getD_mem {α : Type} (l : List α) (i : ℕ) (d : α) (h : i < l.length) :
    l.getD i d ∈ l := by
  rw [List.getD_eq_getElem?_getD, List.getElem?_eq_getElem h]
  simp only [Option.getD_some]
  exact List.getElem_mem h

theorem rsqrt_nonneg_of_nonneg (v : ℝ) (h : 0 ≤ v) :
    ∃ w, rsqrt v = some w ∧ 0 ≤ w :=
  ⟨Real.sqrt v, by
    unfold rsqrt
    rw [if_neg (not_lt.mpr h)], Real.sqrt_nonneg v⟩

/-- Counterexample for C5: no clamping is performed before the square root.
For Charlier with rate `a = -1` the degree-1 radicand `a·1 = -1` is negative
and `np.sqrt` produces NaN (modelled `none`) in the returned β column. -/
theorem beta_sqrt_negative_radicand_nan :
    ((charlier_recurrence 1 (-1 : ℝ)).getD 1 (0, some 0)).2 = none := by
  have hrow : ((charlier_recurrence 1 (-1 : ℝ)).getD 1 (0, some 0)).2 = rsqrt (-1) := by
    simp only [charlier_recurrence, if_neg (by omega : ¬ (1 : ℕ) < 1)]
    rw [getD_map_range _ _ _ _ (by omega : (1 : ℕ) < 1 + 1)]
    norm_num
  rw [hrow]
  unfold rsqrt
  rw [if_pos (by norm_num : (-1 : ℝ) < 0)]

def beta_col_nonneg (t : List (ℝ × Option ℝ)) : Prop :=
  ∀ r ∈ t, ∃ v, r.2 = some v ∧ 0 ≤ v

theorem charlier_beta_entries (N : ℕ) (a : ℝ) (ha : 0 ≤ a) :
    beta_col_nonneg (charlier_recurrence N a) := by
  intro r hr
  unfold charlier_recurrence at hr
  split at hr
  · simp at hr
  · rw [List.mem_map] at hr
    obtain ⟨i, hi, rfl⟩ := hr
    by_cases h0 : i = 0
    · subst h0
      simp only [if_pos rfl]
      exact rsqrt_nonneg_of_nonneg 1 (by norm_num)
    · simp only [if_neg h0]
      exact rsqrt_nonneg_of_nonneg _ (by positivity)

/-- C5 as amended: the β column is square-rooted with no clamping, so a
negative radicand yields NaN (see the counterexample); whenever the radicands
are non-negative — e.g. Charlier with rate `a ≥ 0`, where the radicands are
`1` and `a·i` — the returned β column contains no NaN and is entirely
non-negative. -/
theorem charlier_beta_no_nan (N : ℕ) (a : ℝ) (ha : 0 ≤ a) :
    beta_col_nonneg (charlier_recurrence N a) :=
  charlier_beta_entries N a ha

/-- Witness for the amended C5 at `N = 2`, `a = 0`, table row 1. -/
theorem charlier_beta_no_nan_witness :
    (0 : ℝ) ≤ 0 ∧ ∃ v, ((charlier_recurrence 2 0).getD 1 (0, none)).2 = some v ∧ 0 ≤ v :=
  ⟨le_refl 0,
   charlier_beta_no_nan 2 0 (le_refl 0) _
     (getD_mem _ 1 (0, none) (by
       simp [charlier_recurrence]))⟩

theorem hermite_shape_beta_nonneg (N : ℕ) (rho : ℝ) (prob : Bool) (hN : 1 ≤ N)
    (hr : -(1 / 2) < rho) :
    (hermite_recurrence N rho prob).length = N ∧
      beta_col_nonneg (hermite_recurrence N rho prob) := by
  constructor
  · unfold hermite_recurrence
    rw [if_neg (by omega)]
    simp
  · intro r hrm
    unfold hermite_recurrence at hrm
    rw [if_neg (by omega), List.mem_map] at hrm
    obtain ⟨i, hi, rfl⟩ := hrm
    by_cases hp : prob = true ∧ i = 0
    · simp only [if_pos hp]
      exact ⟨1, rfl, by norm_num⟩
    · simp only [if_neg hp]
      refine rsqrt_nonneg_of_nonneg _ ?_
      by_cases h0 : i = 0
      · subst h0
        rw [if_pos rfl, if_neg (by norm_num : ¬ (0 : ℕ) % 2 = 1)]
        have := Real.Gamma_pos_of_pos (show (0 : ℝ) < rho + 1 / 2 by linarith)
        linarith
      · rw [if_neg h0]
        have hi1 : (1 : ℝ) ≤ (i : ℝ) := by
          exact_mod_cast (by omega : 1 ≤ i)
        by_cases hpm : rho = 0 ∧ prob = true
        · rw [if_pos hpm]
          rcases hpm with ⟨hrho0, _⟩
          subst hrho0
          by_cases hodd : i % 2 = 1
          · rw [if_pos hodd, add_zero]
            positivity
          · rw [if_neg hodd, add_zero]
            positivity
        · rw [if_neg hpm]
          by_cases hodd : i % 2 = 1
          · rw [if_pos hodd]
            nlinarith
          · rw [if_neg hodd, add_zero]
            positivity

theorem jacobi_shape_beta_nonneg (N : ℕ) (alpha beta : ℝ) (prob : Bool) (hN : 1 ≤ N)
    (ha : -1 < alpha) (hb : -1 < beta) :
    (jacobi_recurrence N alpha beta prob).length = N ∧
      beta_col_nonneg (jacobi_recurrence N alpha beta prob) := by
  constructor
  · unfold jacobi_recurrence
    rw [if_neg (by omega)]
    simp
  · intro r hrm
    unfold jacobi_recurrence at hrm
    rw [if_neg (by omega), List.mem_map] at hrm
    obtain ⟨i, hi, rfl⟩ := hrm
    by_cases hp : prob = true ∧ i = 0
    · simp only [if_pos hp]
      exact ⟨1, rfl, by norm_num⟩
    · simp only [if_neg hp]
      refine rsqrt_nonneg_of_nonneg _ ?_
      by_cases h0 : i = 0
      · subst h0
        rw [if_pos rfl]
        exact (Real.exp_pos _).le
      · by_cases h1 : i = 1
        · subst h1
          rw [if_neg h0, if_pos rfl]
          have ha1 : (0 : ℝ) < alpha + 1 := by linarith
          have hb1 : (0 : ℝ) < beta + 1 := by linarith
          apply div_nonneg
          · exact mul_nonneg (mul_nonneg (by norm_num) ha1.le) hb1.le
          · exact mul_nonneg (sq_nonneg _) (by linarith)
        · rw [if_neg h0, if_neg h1]
          have hi2 : (2 : ℝ) ≤ (i : ℝ) := by
            exact_mod_cast (by omega : 2 ≤ i)
          apply div_nonneg
          · refine mul_nonneg (mul_nonneg (mul_nonneg ?_ ?_) ?_) ?_
            · positivity
            · linarith
            · linarith
            · linarith
          · refine mul_nonneg (mul_nonneg (sq_nonneg _) ?_) ?_
            · linarith
            · linarith

theorem krawtchouk_shape_beta_nonneg (Nterms Ntrials : ℕ) (p : ℝ) (h1 : 1 ≤ Nterms)
    (h2 : Nterms ≤ Ntrials) (hp0 : 0 < p) (hp1 : p < 1) :
    ∃ t, krawtchouk_recurrence Nterms Ntrials p = .ok t ∧ t.length = Nterms ∧
      beta_col_nonneg t := by
  have hres : krawtchouk_recurrence Nterms Ntrials p
      = .ok ((List.range Nterms).map (fun (n : ℕ) =>
          (p * ((Ntrials : ℝ) - (n : ℝ)) + (n : ℝ) * (1 - p),
           if n = 0 then some 1
           else rsqrt (p * (1 - p) * (n : ℝ) * ((Ntrials : ℝ) - (n : ℝ) + 1))))) := by
    unfold krawtchouk_recurrence
    rw [if_neg (not_not_intro h2), if_neg (not_not_intro ⟨hp0, hp1⟩), if_neg (by omega)]
  refine ⟨_, hres, by simp, ?_⟩
  intro r hrm
  rw [List.mem_map] at hrm
  obtain ⟨n, hn, rfl⟩ := hrm
  rw [List.mem_range] at hn
  by_cases h0 : n = 0
  · subst h0
    simp only [if_pos rfl]
    exact ⟨1, rfl, by norm_num⟩
  · simp only [if_neg h0]
    refine rsqrt_nonneg_of_nonneg _ ?_
    have hcast : (n : ℝ) ≤ (Ntrials : ℝ) := by
      exact_mod_cast (by omega : n ≤ Ntrials)
    refine mul_nonneg (mul_nonneg (mul_nonneg hp0.le (by linarith)) (Nat.cast_nonneg n)) ?_
    linarith

theorem discrete_chebyshev_shape_beta_nonneg (N Ntrials : ℕ) (h1 : 1 ≤ N)
    (h2 : N ≤ Ntrials) :
    ∃ t, discrete_chebyshev_recurrence N Ntrials = .ok t ∧ t.length = N ∧
      beta_col_nonneg t := by
  have hres : discrete_chebyshev_recurrence N Ntrials
      = .ok ((List.range N).map (fun (i : ℕ) =>
          (0.5 * (Ntrials : ℝ) * (1 - 1 / (Ntrials : ℝ)),
           if i = 0 then some 1
           else rsqrt (0.25 * (Ntrials : ℝ) ^ 2 * (1 - ((i : ℝ) / (Ntrials : ℝ)) ^ 2)
             / (4 - 1 / (i : ℝ) ^ 2))))) := by
    unfold discrete_chebyshev_recurrence
    rw [if_neg (not_not_intro h2), if_neg (by omega)]
  refine ⟨_, hres, by simp, ?_⟩
  intro r hrm
  rw [List.mem_map] at hrm
  obtain ⟨i, hi, rfl⟩ := hrm
  rw [List.mem_range] at hi
  by_cases h0 : i = 0
  · subst h0
    simp only [if_pos rfl]
    exact ⟨1, rfl, by norm_num⟩
  · simp only [if_neg h0]
    refine rsqrt_nonneg_of_nonneg _ ?_
    have hi1 : (1 : ℝ) ≤ (i : ℝ) := by
      exact_mod_cast (by omega : 1 ≤ i)
    have hT1 : (1 : ℝ) ≤ (Ntrials : ℝ) := by
      exact_mod_cast (by omega : 1 ≤ Ntrials)
    have hiT : (i : ℝ) ≤ (Ntrials : ℝ) := by
      exact_mod_cast (by omega : i ≤ Ntrials)
    apply div_nonneg
    · have hrat : (i : ℝ) / (Ntrials : ℝ) ≤ 1 := by
        rw [div_le_one (by linarith)]
        exact hiT
      have hrat0 : (0 : ℝ) ≤ (i : ℝ) / (Ntrials : ℝ) := by positivity
      have hsq : ((i : ℝ) / (Ntrials : ℝ)) ^ 2 ≤ 1 := by nlinarith
      refine mul_nonneg ?_ (by linarith)
      positivity
    · have hinv : 1 / ((i : ℝ)) ^ 2 ≤ 1 := by
        rw [div_le_one (by positivity)]
        nlinarith
      linarith

theorem hahn_shape_beta_nonneg (Nterms N : ℕ) (a b : ℝ) (h1 : 1 ≤ Nterms)
    (h2 : Nterms ≤ N)
    (hAC : ∀ n, n < Nterms → 0 ≤ hahnAn N a b n ∧ 0 ≤ hahnCn N a b n) :
    ∃ t, hahn_recurrence Nterms N a b = .ok t ∧ t.length = Nterms ∧
      beta_col_nonneg t := by
  by_cases hone : Nterms = 1
  · subst hone
    refine ⟨[(hahnAn N a b 0 + hahnCn N a b 0, some 1)], ?_, rfl, ?_⟩
    · unfold hahn_recurrence
      rw [if_neg (not_not_intro h2), if_neg (by omega), if_pos rfl]
    · intro r hrm
      rw [List.mem_singleton] at hrm
      subst hrm
      exact ⟨1, rfl, by norm_num⟩
  · have hres : hahn_recurrence Nterms N a b
        = .ok ((List.range Nterms).map (fun (n : ℕ) =>
            (hahnAn N a b n + hahnCn N a b n,
             if n = 0 then some 1
             else rsqrt (hahnAn N a b (n - 1) * hahnCn N a b n)))) := by
      unfold hahn_recurrence
      rw [if_neg (not_not_intro h2), if_neg (by omega), if_neg hone]
    refine ⟨_, hres, by simp, ?_⟩
    intro r hrm
    rw [List.mem_map] at hrm
    obtain ⟨n, hn, rfl⟩ := hrm
    rw [List.mem_range] at hn
    by_cases h0 : n = 0
    · subst h0
      simp only [if_pos rfl]
      exact ⟨1, rfl, by norm_num⟩
    · simp only [if_neg h0]
      refine rsqrt_nonneg_of_nonneg _ ?_
      exact mul_nonneg (hAC (n - 1) (by omega)).1 (hAC n hn).2

/-- Counterexample for C6: requesting `N < 1` terms does not always return an
empty table regardless of parameters — Krawtchouk asserts `0 < p < 1` (after
`Nterms ≤ Ntrials`) *before* its `N < 1` early return (source lines 174-178),
so `krawtchouk_recurrence(0, 1, 0)` raises instead of returning the empty
`(0,2)` table. -/
theorem krawtchouk_asserts_before_empty_return :
    krawtchouk_recurrence 0 1 (0 : ℝ) = .error "AssertionError: p in (0,1)" := by
  unfold krawtchouk_recurrence
  rw [if_neg (not_not_intro (by omega : (0 : ℕ) ≤ 1)), if_pos (by norm_num)]

/-- C6 as amended: for Hermite, Jacobi and Charlier, `N < 1` returns the empty
table for any parameters; for Krawtchouk, Hahn and discrete Chebyshev the
entry assertions (`Nterms ≤ Ntrials` and `0 < p < 1`; `Nterms ≤ N`;
`N ≤ Ntrials`) are checked before the `N < 1` early return, which is reached
only when they pass (in particular Krawtchouk with `p ∉ (0,1)` raises even
for `N < 1` — see the counterexample).  For `N ≥ 1` with valid parameters the
table has exactly `N` rows (`N+1` for Charlier) and its β column is entirely
non-negative (valid Hahn parameters being those with non-negative recurrence
terms `Aₙ, Cₙ`). -/
theorem recurrence_shapes_and_beta_nonneg :
    (∀ a : ℝ, charlier_recurrence 0 a = []) ∧
    (∀ (alpha beta : ℝ) (prob : Bool), jacobi_recurrence 0 alpha beta prob = []) ∧
    (∀ (rho : ℝ) (prob : Bool), hermite_recurrence 0 rho prob = []) ∧
    (∀ (Ntrials : ℕ) (p : ℝ), 0 < p → p < 1 →
      krawtchouk_recurrence 0 Ntrials p = .ok []) ∧
    (∀ (N : ℕ) (a b : ℝ), hahn_recurrence 0 N a b = .ok []) ∧
    (∀ Ntrials : ℕ, discrete_chebyshev_recurrence 0 Ntrials = .ok []) ∧
    (∀ (N : ℕ) (a : ℝ), 1 ≤ N → 0 ≤ a →
      (charlier_recurrence N a).length = N + 1 ∧
        beta_col_nonneg (charlier_recurrence N a)) ∧
    (∀ (N : ℕ) (alpha beta : ℝ) (prob : Bool), 1 ≤ N → -1 < alpha → -1 < beta →
      (jacobi_recurrence N alpha beta prob).length = N ∧
        beta_col_nonneg (jacobi_recurrence N alpha beta prob)) ∧
    (∀ (N : ℕ) (rho : ℝ) (prob : Bool), 1 ≤ N → -(1 / 2) < rho →
      (hermite_recurrence N rho prob).length = N ∧
        beta_col_nonneg (hermite_recurrence N rho prob)) ∧
    (∀ (Nterms Ntrials : ℕ) (p : ℝ), 1 ≤ Nterms → Nterms ≤ Ntrials → 0 < p → p < 1 →
      ∃ t, krawtchouk_recurrence Nterms Ntrials p = .ok t ∧ t.length = Nterms ∧
        beta_col_nonneg t) ∧
    (∀ N Ntrials : ℕ, 1 ≤ N → N ≤ Ntrials →
      ∃ t, discrete_chebyshev_recurrence N Ntrials = .ok t ∧ t.length = N ∧
        beta_col_nonneg t) ∧
    (∀ (Nterms N : ℕ) (a b : ℝ), 1 ≤ Nterms → Nterms ≤ N →
      (∀ n, n < Nterms → 0 ≤ hahnAn N a b n ∧ 0 ≤ hahnCn N a b n) →
      ∃ t, hahn_recurrence Nterms N a b = .ok t ∧ t.length = Nterms ∧
        beta_col_nonneg t) := by
  refine ⟨?_, ?_, ?_, ?_, ?_, ?_, ?_, ?_, ?_, ?_, ?_, ?_⟩
  · intro a
    unfold charlier_recurrence
    rw [if_pos (by omega)]
  · intro alpha beta prob
    unfold jacobi_recurrence
    rw [if_pos (by omega)]
  · intro rho prob
    unfold hermite_recurrence
    rw [if_pos (by omega)]
  · intro Ntrials p hp0 hp1
    unfold krawtchouk_recurrence
    rw [if_neg (not_not_intro (Nat.zero_le _)), if_neg (not_not_intro ⟨hp0, hp1⟩),
      if_pos (by omega)]
  · intro N a b
    unfold hahn_recurrence
    rw [if_neg (not_not_intro (Nat.zero_le _)), if_pos (by omega)]
  · intro Ntrials
    unfold discrete_chebyshev_recurrence
    rw [if_neg (not_not_intro (Nat.zero_le _)), if_pos (by omega)]
  · intro N a hN ha
    refine ⟨?_, charlier_beta_entries N a ha⟩
    unfold charlier_recurrence
    rw [if_neg (by omega)]
    simp
  · intro N alpha beta prob hN ha hb
    exact jacobi_shape_beta_nonneg N alpha beta prob hN ha hb
  · intro N rho prob hN hr
    exact hermite_shape_beta_nonneg N rho prob hN hr
  · intro Nterms Ntrials p h1 h2 hp0 hp1
    exact krawtchouk_shape_beta_nonneg Nterms Ntrials p h1 h2 hp0 hp1
  · intro N Ntrials h1 h2
    exact discrete_chebyshev_shape_beta_nonneg N Ntrials h1 h2
  · intro Nterms N a b h1 h2 hAC
    exact hahn_shape_beta_nonneg Nterms N a b h1 h2 hAC

/-- Witness for the amended C6 with every family instantiated concretely. -/
theorem recurrence_shapes_and_beta_nonneg_witness :
    charlier_recurrence 0 (5 : ℝ) = [] ∧
    jacobi_recurrence 0 (0 : ℝ) 0 false = [] ∧
    hermite_recurrence 0 (0 : ℝ) false = [] ∧
    krawtchouk_recurrence 0 3 (1 / 2 : ℝ) = .ok [] ∧
    hahn_recurrence 0 3 (0 : ℝ) 0 = .ok [] ∧
    discrete_chebyshev_recurrence 0 3 = .ok [] ∧
    ((charlier_recurrence 2 (1 : ℝ)).length = 2 + 1 ∧
      beta_col_nonneg (charlier_recurrence 2 1)) ∧
    ((jacobi_recurrence 3 (0 : ℝ) 0 false).length = 3 ∧
      beta_col_nonneg (jacobi_recurrence 3 0 0 false)) ∧
    ((hermite_recurrence 3 (0 : ℝ) false).length = 3 ∧
      beta_col_nonneg (hermite_recurrence 3 0 false)) ∧
    (∃ t, krawtchouk_recurrence 2 3 (1 / 2 : ℝ) = .ok t ∧ t.length = 2 ∧
      beta_col_nonneg t) ∧
    (∃ t, discrete_chebyshev_recurrence 2 3 = .ok t ∧ t.length = 2 ∧
      beta_col_nonneg t) ∧
    (∃ t, hahn_recurrence 2 4 (-3 : ℝ) (-7) = .ok t ∧ t.length = 2 ∧
      beta_col_nonneg t) := by
  obtain ⟨p1, p2, p3, p4, p5, p6, p7, p8, p9, p10, p11, p12⟩ :=
    recurrence_shapes_and_beta_nonneg
  exact ⟨p1 5, p2 0 0 false, p3 0 false, p4 3 (1 / 2) (by norm_num) (by norm_num),
    p5 3 0 0, p6 3, p7 2 1 (by norm_num) (by norm_num),
    p8 3 0 0 false (by norm_num) (by norm_num) (by norm_num),
    p9 3 0 false (by norm_num) (by norm_num),
    p10 2 3 (1 / 2) (by norm_num) (by norm_num) (by norm_num) (by norm_num),
    p11 2 3 (by norm_num) (by norm_num),
    p12 2 4 (-3) (-7) (by norm_num) (by norm_num) (by
      intro n hn
      interval_cases n <;> constructor <;> norm_num [hahnAn, hahnCn])⟩
